import Mathlib

/-!
Verification of the in-place complex bit-reversal permutation
(`WebRtcSpl_ComplexBitReverse` in `src/fft.cc`).

The C routine receives an `int16_t*` pointing at `2^stages` complex samples
stored as interleaved real/imaginary 16-bit pairs, reinterprets the memory as
`int32_t*` so that each complex sample is one 32-bit lane, and permutes the
lanes in place by the bit-reversal permutation, maintaining the reversed index
incrementally with the classic "add 1 to a bit-reversed counter" update.

The buffer is modelled at the 16-bit granularity of its declared type: a
`List Int` of cells, where the 32-bit lane at complex index `i` is the pair of
cells `(2*i, 2*i+1)`.  The loop is a fold over the loop counter with explicit
state (buffer contents plus the incrementally maintained `index_reversed`).
-/

namespace Audio

/-- `stages`-bit reversal of `i` (the mathematical specification function
`reverse_bits(i, stages)`): the low bit of `i` becomes the top bit of the
result, and the rest of `i` is reversed into the remaining `stages - 1` bits. -/
def reverse_bits : Nat → Nat → Nat
  | _, 0 => 0
  | i, s + 1 => (i % 2) * 2 ^ s + reverse_bits (i / 2) s

/-- The 32-bit lane at complex index `i` of the 16-bit cell buffer:
the pair of cells at offsets `2*i` and `2*i + 1` (real, imaginary). -/
def lane (buf : List Int) (i : Nat) : Int × Int :=
  (buf.getD (2 * i) 0, buf.getD (2 * i + 1) 0)

/-- A 32-bit store at complex index `i`: writes both 16-bit cells. -/
def setLane (buf : List Int) (i : Nat) (v : Int × Int) : List Int :=
  (buf.set (2 * i) v.1).set (2 * i + 1) v.2

/-- `temp = p[i]; p[i] = p[j]; p[j] = temp` at 32-bit lane granularity,
exactly the swap the source performs through `complex_data_ptr`. -/
def swapLanes (buf : List Int) (i j : Nat) : List Int :=
  let temp := lane buf i
  let buf1 := setLane buf i (lane buf j)
  setLane buf1 j temp

/-- Structural helper for `findBit`: the halving loop with explicit fuel.
Since `b` strictly decreases at every recursive call (the guard forces
`b ≥ 2`), fuel `b` always suffices; `findBitAux_congr` below shows the
result is independent of the fuel. -/
def findBitAux : Nat → Nat → Nat → Nat
  | 0, b, _ => b / 2
  | fuel + 1, b, limit =>
      if b / 2 > limit then findBitAux fuel (b / 2) limit else b / 2

/-- The do-while search of the source:
`do { bit >>= 1; } while (bit > max - index_reversed);` —
repeatedly halve `b` until the value no longer exceeds `limit`,
returning the final value of `bit`. -/
def findBit (b limit : Nat) : Nat := findBitAux b b limit

theorem findBitAux_congr :
    ∀ fuel₁ fuel₂ b limit, b ≤ fuel₁ + 1 → b ≤ fuel₂ + 1 →
      findBitAux fuel₁ b limit = findBitAux fuel₂ b limit := by
  intro fuel₁
  induction fuel₁ with
  | zero =>
    intro fuel₂ b limit h₁ h₂
    interval_cases b <;> cases fuel₂ <;> simp [findBitAux]
  | succ f₁ ih =>
    intro fuel₂ b limit h₁ h₂
    cases fuel₂ with
    | zero =>
      interval_cases b <;> simp [findBitAux]
    | succ f₂ =>
      simp only [findBitAux]
      split
      · next hgt =>
        exact ih f₂ (b / 2) limit (by omega) (by omega)
      · rfl

/-- The defining equation of the do-while loop: one halving, then exit or
continue depending on the loop condition. -/
theorem findBit_unfold (b limit : Nat) :
    findBit b limit = if b / 2 > limit then findBit (b / 2) limit else b / 2 := by
  unfold findBit
  match b with
  | 0 => simp [findBitAux]
  | 1 => simp [findBitAux]
  | n + 2 =>
    simp only [findBitAux]
    split
    · next hgt =>
      exact findBitAux_congr (n + 1) ((n + 2) / 2) ((n + 2) / 2) limit
        (by omega) (by omega)
    · rfl

/-- Loop state of the routine: the buffer and the variable `index_reversed`. -/
structure PermState where
  buf : List Int
  index_reversed : Nat

/-- The `index_reversed` update of the loop body: find `bit` by the halving
search, then `index_reversed = (index_reversed & (bit - 1)) + bit`.  When
`bit = 0` the C mask is `-1` (all ones) and the update leaves `index_reversed`
unchanged, which the `if` spells out. -/
def nextReversed (length maxN ir : Nat) : Nat :=
  let bit := findBit length (maxN - ir)
  if bit = 0 then ir else (ir &&& (bit - 1)) + bit

/-- One iteration of the `for (index = 1; index <= max; ++index)` loop body:
update `index_reversed`, then swap lanes `index` and `index_reversed` unless
`index_reversed <= index`. -/
def bitReverseStep (length maxN : Nat) (s : PermState) (index : Nat) : PermState :=
  let ir := nextReversed length maxN s.index_reversed
  if ir ≤ index then ⟨s.buf, ir⟩
  else ⟨swapLanes s.buf index ir, ir⟩

/-- The state after the first `k` iterations of the loop (indices `1..k`),
starting from `index_reversed = 0`. -/
def permuteIter (complex_data : List Int) (stages k : Nat) : PermState :=
  (List.range k).foldl
    (fun s j => bitReverseStep (2 ^ stages) (2 ^ stages - 1) s (j + 1))
    ⟨complex_data, 0⟩

/-- `WebRtcSpl_ComplexBitReverse(complex_data, stages)`: run the loop for
`index = 1 .. max` with `max = 2^stages - 1` and return the final buffer. -/
def WebRtcSpl_ComplexBitReverse (complex_data : List Int) (stages : Nat) : List Int :=
  (permuteIter complex_data stages (2 ^ stages - 1)).buf

/-! ### Arithmetic facts about `reverse_bits` and `findBit` -/

theorem reverse_bits_lt (s i : Nat) : reverse_bits i s < 2 ^ s := by
  induction s generalizing i with
  | zero => simp [reverse_bits]
  | succ s ih =>
    have h1 : reverse_bits (i / 2) s < 2 ^ s := ih (i / 2)
    have h2 : i % 2 ≤ 1 := by omega
    have h3 : (i % 2) * 2 ^ s ≤ 2 ^ s := by
      calc (i % 2) * 2 ^ s ≤ 1 * 2 ^ s := Nat.mul_le_mul_right _ h2
        _ = 2 ^ s := by ring
    simp only [reverse_bits]
    have : (2 : Nat) ^ (s + 1) = 2 ^ s + 2 ^ s := by ring
    omega

theorem reverse_bits_zero (s : Nat) : reverse_bits 0 s = 0 := by
  induction s with
  | zero => rfl
  | succ s ih => simp [reverse_bits, ih]

/-- Peeling the high input bit instead: for `i < 2^(s+1)`, the reversal of
`i` over `s+1` bits is the reversal of the low `s` bits shifted up by one,
with the top bit of `i` in the low position. -/
theorem reverse_bits_high (s : Nat) :
    ∀ i, i < 2 ^ (s + 1) →
      reverse_bits i (s + 1) = 2 * reverse_bits (i % 2 ^ s) s + i / 2 ^ s := by
  induction s with
  | zero =>
    intro i hi
    interval_cases i <;> decide
  | succ s ih =>
    intro i hi
    have hdiv : i / 2 < 2 ^ (s + 1) := by
      have : (2 : Nat) ^ (s + 2) = 2 * 2 ^ (s + 1) := by ring
      omega
    have hmod2 : i % 2 ^ (s + 1) % 2 = i % 2 :=
      Nat.mod_mod_of_dvd i (dvd_pow_self 2 (Nat.succ_ne_zero s))
    have hmoddiv : i % 2 ^ (s + 1) / 2 = i / 2 % 2 ^ s := by
      have h21 : (2 : Nat) ^ (s + 1) = 2 * 2 ^ s := by ring
      rw [h21, Nat.mod_mul_right_div_self]
    have hdivdiv : i / 2 ^ (s + 1) = i / 2 / 2 ^ s := by
      have h21 : (2 : Nat) ^ (s + 1) = 2 * 2 ^ s := by ring
      rw [h21, ← Nat.div_div_eq_div_mul]
    calc reverse_bits i (s + 2)
        = (i % 2) * 2 ^ (s + 1) + reverse_bits (i / 2) (s + 1) := rfl
      _ = (i % 2) * 2 ^ (s + 1)
          + (2 * reverse_bits (i / 2 % 2 ^ s) s + i / 2 / 2 ^ s) := by
          rw [ih (i / 2) hdiv]
      _ = 2 * ((i % 2 ^ (s + 1) % 2) * 2 ^ s
            + reverse_bits (i % 2 ^ (s + 1) / 2) s) + i / 2 ^ (s + 1) := by
          rw [hmod2, hmoddiv, hdivdiv]; ring
      _ = 2 * reverse_bits (i % 2 ^ (s + 1)) (s + 1) + i / 2 ^ (s + 1) := rfl

theorem reverse_bits_involution (s : Nat) :
    ∀ i, i < 2 ^ s → reverse_bits (reverse_bits i s) s = i := by
  induction s with
  | zero =>
    intro i hi
    interval_cases i
    rfl
  | succ s ih =>
    intro i hi
    have hR : reverse_bits (i / 2) s < 2 ^ s := reverse_bits_lt s (i / 2)
    have hpos : (0 : Nat) < 2 ^ s := Nat.two_pow_pos s
    have hr : reverse_bits i (s + 1)
        = (i % 2) * 2 ^ s + reverse_bits (i / 2) s := rfl
    have hrlt : reverse_bits i (s + 1) < 2 ^ (s + 1) := reverse_bits_lt (s + 1) i
    rw [reverse_bits_high s _ hrlt]
    have hmod : reverse_bits i (s + 1) % 2 ^ s = reverse_bits (i / 2) s := by
      rw [hr, Nat.add_comm, Nat.add_mul_mod_self_right, Nat.mod_eq_of_lt hR]
    have hdiv : reverse_bits i (s + 1) / 2 ^ s = i % 2 := by
      rw [hr, Nat.add_comm, Nat.add_mul_div_right _ _ hpos,
        Nat.div_eq_of_lt hR]
      omega
    rw [hmod, hdiv]
    have hidiv : i / 2 < 2 ^ s := by
      have : (2 : Nat) ^ (s + 1) = 2 * 2 ^ s := by ring
      omega
    rw [ih (i / 2) hidiv]
    omega

/-- The reversal of the all-ones index is itself. -/
theorem reverse_bits_all_ones (s : Nat) :
    reverse_bits (2 ^ s - 1) s = 2 ^ s - 1 := by
  induction s with
  | zero => rfl
  | succ s ih =>
    have hpos : (0 : Nat) < 2 ^ s := Nat.two_pow_pos s
    have h2 : (2 : Nat) ^ (s + 1) = 2 * 2 ^ s := by ring
    have hmod : (2 ^ (s + 1) - 1) % 2 = 1 := by omega
    have hdiv : (2 ^ (s + 1) - 1) / 2 = 2 ^ s - 1 := by omega
    show (2 ^ (s + 1) - 1) % 2 * 2 ^ s + reverse_bits ((2 ^ (s + 1) - 1) / 2) s
        = 2 ^ (s + 1) - 1
    rw [hmod, hdiv, ih]
    omega

/-- Characterization of the halving search: starting from `2^s`, for a limit
in `[1, 2^s)`, the search stops at the highest power of two not exceeding
the limit. -/
theorem findBit_spec (s : Nat) :
    ∀ limit, 1 ≤ limit → limit < 2 ^ s →
      ∃ h, h < s ∧ findBit (2 ^ s) limit = 2 ^ h ∧
        2 ^ h ≤ limit ∧ limit < 2 ^ (h + 1) := by
  induction s with
  | zero =>
    intro limit h1 h2
    omega
  | succ s ih =>
    intro limit h1 h2
    have hhalf : 2 ^ (s + 1) / 2 = 2 ^ s := by
      have : (2 : Nat) ^ (s + 1) = 2 * 2 ^ s := by ring
      omega
    rw [findBit_unfold, hhalf]
    by_cases hgt : 2 ^ s > limit
    · rw [if_pos hgt]
      obtain ⟨h, hlt, heq, hle, hup⟩ := ih limit h1 hgt
      exact ⟨h, by omega, heq, hle, hup⟩
    · rw [if_neg hgt]
      exact ⟨s, by omega, rfl, by omega, h2⟩

/-- The heart of the routine: applied to the `stages`-bit reversal of `i`,
the incremental update computes the reversal of `i + 1` — the standard
"add 1 to a bit-reversed counter" step. -/
theorem nextReversed_reverse (s : Nat) :
    ∀ i, i + 1 ≤ 2 ^ s - 1 →
      nextReversed (2 ^ s) (2 ^ s - 1) (reverse_bits i s)
        = reverse_bits (i + 1) s := by
  induction s with
  | zero =>
    intro i hi
    omega
  | succ s ih =>
    intro i hi
    have hpos : (0 : Nat) < 2 ^ s := Nat.two_pow_pos s
    have h2 : (2 : Nat) ^ (s + 1) = 2 * 2 ^ s := by ring
    have hR : reverse_bits (i / 2) s < 2 ^ s := reverse_bits_lt s (i / 2)
    have hr : reverse_bits i (s + 1)
        = (i % 2) * 2 ^ s + reverse_bits (i / 2) s := rfl
    rcases Nat.mod_two_eq_zero_or_one i with hpar | hpar
    · -- even case: the top bit of the reversed value is clear, and the
      -- search stops immediately at `2^s`.
      have hrv : reverse_bits i (s + 1) = reverse_bits (i / 2) s := by
        rw [hr, hpar]; ring
      have hlim : 2 ^ (s + 1) - 1 - reverse_bits i (s + 1) ≥ 2 ^ s := by
        rw [hrv]; omega
      have hlim2 : 2 ^ (s + 1) - 1 - reverse_bits i (s + 1) < 2 ^ (s + 1) := by
        omega
      obtain ⟨h, hlt, heq, hle, hup⟩ :=
        findBit_spec (s + 1) (2 ^ (s + 1) - 1 - reverse_bits i (s + 1))
          (by omega) hlim2
      have hh : h = s := by
        by_contra hcon
        have hle' : h + 1 ≤ s := by omega
        have hps : (2 : Nat) ^ (h + 1) ≤ 2 ^ s :=
          Nat.pow_le_pow_right (by omega) hle'
        omega
      rw [hh] at heq
      simp only [nextReversed]
      rw [heq]
      have hbitne : (2 : Nat) ^ s ≠ 0 := by omega
      rw [if_neg hbitne, Nat.and_pow_two_sub_one_eq_mod, hrv,
        Nat.mod_eq_of_lt hR]
      have hgoal : reverse_bits (i + 1) (s + 1)
          = 2 ^ s + reverse_bits (i / 2) s := by
        show (i + 1) % 2 * 2 ^ s + reverse_bits ((i + 1) / 2) s
            = 2 ^ s + reverse_bits (i / 2) s
        have hm : (i + 1) % 2 = 1 := by omega
        have hd : (i + 1) / 2 = i / 2 := by omega
        rw [hm, hd]; ring
      omega
    · -- odd case: the top bit of the reversed value is set, the first
      -- halving skips it, and the update coincides with the `s`-bit one.
      have hrv : reverse_bits i (s + 1) = 2 ^ s + reverse_bits (i / 2) s := by
        rw [hr, hpar]; ring
      -- `i` odd and `i + 1 ≤ 2^(s+1) - 1` force `i/2 + 1 ≤ 2^s - 1`.
      have hidiv : i / 2 + 1 ≤ 2 ^ s - 1 := by omega
      have hRne : reverse_bits (i / 2) s ≠ 2 ^ s - 1 := by
        intro hcon
        have : reverse_bits (reverse_bits (i / 2) s) s
            = reverse_bits (2 ^ s - 1) s := by rw [hcon]
        rw [reverse_bits_involution s (i / 2) (by omega),
          reverse_bits_all_ones] at this
        omega
      have hlim : 2 ^ (s + 1) - 1 - reverse_bits i (s + 1)
          = 2 ^ s - 1 - reverse_bits (i / 2) s := by
        rw [hrv]; omega
      have hlim1 : 1 ≤ 2 ^ s - 1 - reverse_bits (i / 2) s := by omega
      have hlimlt : 2 ^ s - 1 - reverse_bits (i / 2) s < 2 ^ s := by omega
      obtain ⟨h, hlt, heq, hle, hup⟩ :=
        findBit_spec s (2 ^ s - 1 - reverse_bits (i / 2) s) hlim1 hlimlt
      -- the outer search first halves `2^(s+1)` to `2^s`, which still
      -- exceeds the limit, and then agrees with the inner search.
      have houter : findBit (2 ^ (s + 1)) (2 ^ s - 1 - reverse_bits (i / 2) s)
          = 2 ^ h := by
        rw [findBit_unfold]
        have hhalf : 2 ^ (s + 1) / 2 = 2 ^ s := by omega
        rw [hhalf, if_pos (by omega), heq]
      have hbitne : (2 : Nat) ^ h ≠ 0 := by
        have := Nat.two_pow_pos h
        omega
      have hstep : nextReversed (2 ^ (s + 1)) (2 ^ (s + 1) - 1)
          (reverse_bits i (s + 1))
          = reverse_bits (i / 2) s % 2 ^ h + 2 ^ h := by
        simp only [nextReversed]
        rw [hlim, houter, if_neg hbitne, Nat.and_pow_two_sub_one_eq_mod, hrv]
        have hsplit : (2 : Nat) ^ s = 2 ^ h * 2 ^ (s - h) := by
          rw [← pow_add]
          congr 1
          omega
        rw [hsplit, Nat.mul_add_mod]
      have hinner : nextReversed (2 ^ s) (2 ^ s - 1) (reverse_bits (i / 2) s)
          = reverse_bits (i / 2) s % 2 ^ h + 2 ^ h := by
        simp only [nextReversed]
        rw [heq, if_neg hbitne, Nat.and_pow_two_sub_one_eq_mod]
      have hfinal : reverse_bits (i + 1) (s + 1)
          = reverse_bits (i / 2 + 1) s := by
        show (i + 1) % 2 * 2 ^ s + reverse_bits ((i + 1) / 2) s = _
        have hm : (i + 1) % 2 = 0 := by omega
        have hd : (i + 1) / 2 = i / 2 + 1 := by omega
        rw [hm, hd]
        ring
      rw [hstep, hfinal, ← ih (i / 2) hidiv, hinner]


/-! ### Unfolding the loop -/

theorem permuteIter_succ (b : List Int) (stg k : Nat) :
    permuteIter b stg (k + 1)
      = bitReverseStep (2 ^ stg) (2 ^ stg - 1) (permuteIter b stg k) (k + 1) := by
  unfold permuteIter
  rw [List.range_succ, List.foldl_append, List.foldl_cons, List.foldl_nil]

theorem bitReverseStep_index_reversed (length maxN : Nat) (s : PermState)
    (index : Nat) :
    (bitReverseStep length maxN s index).index_reversed
      = nextReversed length maxN s.index_reversed := by
  simp only [bitReverseStep]
  split <;> rfl

theorem bitReverseStep_buf (length maxN : Nat) (s : PermState) (index : Nat) :
    (bitReverseStep length maxN s index).buf
      = if nextReversed length maxN s.index_reversed ≤ index then s.buf
        else swapLanes s.buf index (nextReversed length maxN s.index_reversed) := by
  simp only [bitReverseStep]
  split <;> simp_all

/-- The running `index_reversed` equals the bit reversal of the loop counter
after every iteration. -/
theorem permuteIter_index_reversed (b : List Int) (stg : Nat) :
    ∀ k, k ≤ 2 ^ stg - 1 →
      (permuteIter b stg k).index_reversed = reverse_bits k stg := by
  intro k
  induction k with
  | zero =>
    intro _
    rw [reverse_bits_zero]
    rfl
  | succ k ih =>
    intro hk
    rw [permuteIter_succ, bitReverseStep_index_reversed, ih (by omega),
      nextReversed_reverse stg k hk]

/-! ### Cell and lane lemmas -/

theorem getD_set_self (l : List Int) (n : Nat) (a : Int) (h : n < l.length) :
    (l.set n a).getD n 0 = a := by
  rw [List.getD_eq_getElem?_getD, List.getElem?_set_eq_of_lt a h]
  rfl

theorem getD_set_ne (l : List Int) (m n : Nat) (a : Int) (h : m ≠ n) :
    (l.set m a).getD n 0 = l.getD n 0 := by
  rw [List.getD_eq_getElem?_getD, List.getElem?_set_ne h,
    ← List.getD_eq_getElem?_getD]

theorem length_setLane (buf : List Int) (i : Nat) (v : Int × Int) :
    (setLane buf i v).length = buf.length := by
  simp [setLane]

theorem length_swapLanes (buf : List Int) (i j : Nat) :
    (swapLanes buf i j).length = buf.length := by
  simp [swapLanes, length_setLane]

theorem lane_setLane_self (buf : List Int) (i : Nat) (v : Int × Int)
    (h : 2 * i + 1 < buf.length) :
    lane (setLane buf i v) i = v := by
  unfold lane setLane
  have h1 : 2 * i < buf.length := by omega
  have h2 : 2 * i + 1 < (buf.set (2 * i) v.1).length := by
    rw [List.length_set]; omega
  rw [getD_set_ne _ _ _ _ (by omega), getD_set_self _ _ _ h1,
    getD_set_self _ _ _ h2]

theorem lane_setLane_ne (buf : List Int) (i j : Nat) (v : Int × Int)
    (h : i ≠ j) :
    lane (setLane buf i v) j = lane buf j := by
  unfold lane setLane
  rw [getD_set_ne _ _ _ _ (by omega), getD_set_ne _ _ _ _ (by omega),
    getD_set_ne _ _ _ _ (by omega), getD_set_ne _ _ _ _ (by omega)]

theorem lane_swapLanes_left (buf : List Int) (i j : Nat) (hij : i ≠ j)
    (hi : 2 * i + 1 < buf.length) :
    lane (swapLanes buf i j) i = lane buf j := by
  unfold swapLanes
  rw [lane_setLane_ne _ _ _ _ (Ne.symm hij), lane_setLane_self _ _ _ hi]

theorem lane_swapLanes_right (buf : List Int) (i j : Nat)
    (hj : 2 * j + 1 < buf.length) :
    lane (swapLanes buf i j) j = lane buf i := by
  unfold swapLanes
  rw [lane_setLane_self]
  rw [length_setLane]
  exact hj

theorem lane_swapLanes_other (buf : List Int) (i j p : Nat)
    (hpi : p ≠ i) (hpj : p ≠ j) :
    lane (swapLanes buf i j) p = lane buf p := by
  unfold swapLanes
  rw [lane_setLane_ne _ _ _ _ (Ne.symm hpj), lane_setLane_ne _ _ _ _ (Ne.symm hpi)]

/-! ### Length preservation and the main loop invariant -/

theorem permuteIter_length (b : List Int) (stg k : Nat) :
    (permuteIter b stg k).buf.length = b.length := by
  induction k with
  | zero => rfl
  | succ k ih =>
    rw [permuteIter_succ, bitReverseStep_buf]
    split
    · exact ih
    · rw [length_swapLanes]
      exact ih

/-- Main loop invariant: after `k` iterations, every pair `{p, reverse p}`
whose smaller member has already been visited is swapped, and every other
lane still holds its original value. -/
theorem permuteIter_lane_invariant (stg : Nat) (b : List Int)
    (hlen : b.length = 2 * 2 ^ stg) :
    ∀ k, k ≤ 2 ^ stg - 1 → ∀ p, p < 2 ^ stg →
      (min p (reverse_bits p stg) ≤ k →
        lane (permuteIter b stg k).buf p = lane b (reverse_bits p stg)) ∧
      (k < min p (reverse_bits p stg) →
        lane (permuteIter b stg k).buf p = lane b p) := by
  intro k
  induction k with
  | zero =>
    intro _ p hp
    constructor
    · intro hmin
      have h0 : p = 0 ∨ reverse_bits p stg = 0 := by omega
      have hpz : p = 0 := by
        rcases h0 with h | h
        · exact h
        · have hinv := reverse_bits_involution stg p hp
          rw [h, reverse_bits_zero] at hinv
          omega
      subst hpz
      rw [reverse_bits_zero]
      rfl
    · intro _
      rfl
  | succ k ih =>
    intro hk
    have ihlane := ih (by omega)
    have hir : (permuteIter b stg k).index_reversed = reverse_bits k stg :=
      permuteIter_index_reversed b stg k (by omega)
    have hnext : nextReversed (2 ^ stg) (2 ^ stg - 1)
        (permuteIter b stg k).index_reversed = reverse_bits (k + 1) stg := by
      rw [hir]
      exact nextReversed_reverse stg k hk
    have hbuf : (permuteIter b stg (k + 1)).buf
        = if reverse_bits (k + 1) stg ≤ k + 1 then (permuteIter b stg k).buf
          else swapLanes (permuteIter b stg k).buf (k + 1)
            (reverse_bits (k + 1) stg) := by
      rw [permuteIter_succ, bitReverseStep_buf, hnext]
    have hrk1 : reverse_bits (k + 1) stg < 2 ^ stg := reverse_bits_lt stg (k + 1)
    have hk1 : k + 1 < 2 ^ stg := by omega
    have hinv1 : reverse_bits (reverse_bits (k + 1) stg) stg = k + 1 :=
      reverse_bits_involution stg (k + 1) hk1
    intro p hp
    have hρp : reverse_bits p stg < 2 ^ stg := reverse_bits_lt stg p
    have hinvp : reverse_bits (reverse_bits p stg) stg = p :=
      reverse_bits_involution stg p hp
    have hlenk : (permuteIter b stg k).buf.length = 2 * 2 ^ stg := by
      rw [permuteIter_length, hlen]
    rw [hbuf]
    by_cases hswap : reverse_bits (k + 1) stg ≤ k + 1
    · rw [if_pos hswap]
      constructor
      · intro hmin
        by_cases hmink : min p (reverse_bits p stg) ≤ k
        · exact (ihlane p hp).1 hmink
        · have hmin1 : min p (reverse_bits p stg) = k + 1 := by omega
          have hpp : reverse_bits p stg = p := by
            rcases (by omega : p = k + 1 ∨ reverse_bits p stg = k + 1) with h | h
            · have hle' : reverse_bits p stg ≤ k + 1 := by
                rw [h]
                exact hswap
              omega
            · have hval : reverse_bits (k + 1) stg = p := by
                rw [← h]
                exact hinvp
              have hle' : p ≤ k + 1 := by
                rw [← hval]
                exact hswap
              omega
          rw [hpp]
          exact (ihlane p hp).2 (by omega)
      · intro hmin
        exact (ihlane p hp).2 (by omega)
    · rw [if_neg hswap]
      have hgt : k + 1 < reverse_bits (k + 1) stg := by omega
      have hne : k + 1 ≠ reverse_bits (k + 1) stg := by omega
      constructor
      · intro hmin
        by_cases hp1 : p = k + 1
        · subst hp1
          rw [lane_swapLanes_left _ _ _ hne (by omega)]
          have hq := (ihlane (reverse_bits (k + 1) stg) hρp).2
          rw [hinvp] at hq
          exact hq (by omega)
        · by_cases hp2 : p = reverse_bits (k + 1) stg
          · rw [hp2, lane_swapLanes_right _ _ _ (by omega), hinv1]
            exact (ihlane (k + 1) hk1).2 (by omega)
          · have hρne : reverse_bits p stg ≠ k + 1 := by
              intro h
              apply hp2
              rw [← h]
              exact hinvp.symm
            rw [lane_swapLanes_other _ _ _ _ hp1 hp2]
            exact (ihlane p hp).1 (by omega)
      · intro hmin
        have hp1 : p ≠ k + 1 := by omega
        have hp2 : p ≠ reverse_bits (k + 1) stg := by
          intro h
          have hρ2 : reverse_bits p stg = k + 1 := by
            rw [h, hinv1]
          omega
        rw [lane_swapLanes_other _ _ _ _ hp1 hp2]
        exact (ihlane p hp).2 (by omega)

/-- Every lane of the output buffer is the input lane at the bit-reversed
index. -/
theorem permute_lane (b : List Int) (stg : Nat) (hlen : b.length = 2 * 2 ^ stg)
    (i : Nat) (hi : i < 2 ^ stg) :
    lane (WebRtcSpl_ComplexBitReverse b stg) i = lane b (reverse_bits i stg) := by
  unfold WebRtcSpl_ComplexBitReverse
  have hpos : (0 : Nat) < 2 ^ stg := Nat.two_pow_pos stg
  exact (permuteIter_lane_invariant stg b hlen (2 ^ stg - 1) (le_refl _) i hi).1
    (by omega)

/-- Two buffers of `2 * n` cells that agree on every lane are equal. -/
theorem eq_of_lane_eq (l1 l2 : List Int) (n : Nat)
    (hlen1 : l1.length = 2 * n) (hlen2 : l2.length = 2 * n)
    (h : ∀ i, i < n → lane l1 i = lane l2 i) : l1 = l2 := by
  apply List.ext_getElem (by omega)
  intro m hm1 hm2
  have hi : m / 2 < n := by omega
  have hpair := h (m / 2) hi
  have hfst : l1.getD (2 * (m / 2)) 0 = l2.getD (2 * (m / 2)) 0 :=
    congrArg Prod.fst hpair
  have hsnd : l1.getD (2 * (m / 2) + 1) 0 = l2.getD (2 * (m / 2) + 1) 0 :=
    congrArg Prod.snd hpair
  have hcell : l1.getD m 0 = l2.getD m 0 := by
    rcases Nat.mod_two_eq_zero_or_one m with hp | hp
    · have hmeq : 2 * (m / 2) = m := by omega
      rwa [hmeq] at hfst
    · have hmeq : 2 * (m / 2) + 1 = m := by omega
      rwa [hmeq] at hsnd
  rw [List.getD_eq_getElem?_getD, List.getD_eq_getElem?_getD,
    List.getElem?_eq_getElem hm1, List.getElem?_eq_getElem hm2] at hcell
  simpa using hcell

/-- A concrete 8-sample buffer (lane `i` holds the pair `(i, i + 10)`),
used by the witnesses. -/
def testBuf : List Int := [0, 10, 1, 11, 2, 12, 3, 13, 4, 14, 5, 15, 6, 16, 7, 17]

/-! ### The claims -/

/-- C1: for every `stages ≥ 0` and every buffer of `2^stages` packed complex
samples, after the call the sample at every index `i` in `[0, 2^stages)` is
exactly the sample that was at index `reverse_bits(i, stages)` before the
call. -/
theorem C1_sample_at_reversed_index (stages : Nat) (b : List Int)
    (hlen : b.length = 2 * 2 ^ stages) (i : Nat) (hi : i < 2 ^ stages) :
    lane (WebRtcSpl_ComplexBitReverse b stages) i
      = lane b (reverse_bits i stages) :=
  permute_lane b stages hlen i hi

/-- Witness for C1 at `stages = 3`, `i = 1`. -/
theorem C1_sample_at_reversed_index_witness :
    testBuf.length = 2 * 2 ^ 3 ∧ 1 < 2 ^ 3 ∧
      lane (WebRtcSpl_ComplexBitReverse testBuf 3) 1
        = lane testBuf (reverse_bits 1 3) :=
  ⟨by decide, by decide,
    C1_sample_at_reversed_index 3 testBuf (by decide) 1 (by decide)⟩

/-- C2: applying the permutation twice restores the original buffer
(bit reversal is an involution). -/
theorem C2_involution (stages : Nat) (b : List Int)
    (hlen : b.length = 2 * 2 ^ stages) :
    WebRtcSpl_ComplexBitReverse (WebRtcSpl_ComplexBitReverse b stages) stages
      = b := by
  have hlen1 : (WebRtcSpl_ComplexBitReverse b stages).length = 2 * 2 ^ stages := by
    unfold WebRtcSpl_ComplexBitReverse
    rw [permuteIter_length]
    exact hlen
  refine eq_of_lane_eq _ _ (2 ^ stages) ?_ hlen ?_
  · unfold WebRtcSpl_ComplexBitReverse
    rw [permuteIter_length]
    exact hlen1
  · intro i hi
    rw [permute_lane _ stages hlen1 i hi,
      permute_lane b stages hlen (reverse_bits i stages) (reverse_bits_lt stages i),
      reverse_bits_involution stages i hi]

/-- Witness for C2 at `stages = 3` on the concrete buffer. -/
theorem C2_involution_witness :
    testBuf.length = 2 * 2 ^ 3 ∧
      WebRtcSpl_ComplexBitReverse (WebRtcSpl_ComplexBitReverse testBuf 3) 3
        = testBuf :=
  ⟨by decide, C2_involution 3 testBuf (by decide)⟩

/-- C3: the multiset of complex samples held in the first `2^stages` lanes is
unchanged by the call — the routine only rearranges samples, altering,
duplicating, or dropping none. -/
theorem C3_multiset_unchanged (stages : Nat) (b : List Int)
    (hlen : b.length = 2 * 2 ^ stages) :
    (((List.range (2 ^ stages)).map
        (lane (WebRtcSpl_ComplexBitReverse b stages))) : Multiset (Int × Int))
      = (((List.range (2 ^ stages)).map (lane b)) : Multiset (Int × Int)) := by
  have h1 : (List.range (2 ^ stages)).map
      (lane (WebRtcSpl_ComplexBitReverse b stages))
      = (List.range (2 ^ stages)).map (fun i => lane b (reverse_bits i stages)) := by
    apply List.map_congr_left
    intro i hi
    exact permute_lane b stages hlen i (List.mem_range.mp hi)
  have h2 : (List.range (2 ^ stages)).map (fun i => lane b (reverse_bits i stages))
      = ((List.range (2 ^ stages)).map (fun i => reverse_bits i stages)).map
          (lane b) := by
    rw [List.map_map]
    rfl
  have h3 : (((List.range (2 ^ stages)).map (fun i => reverse_bits i stages)) :
        Multiset Nat)
      = ((List.range (2 ^ stages)) : Multiset Nat) := by
    refine (Multiset.Nodup.ext ?_ ?_).mpr ?_
    · rw [Multiset.coe_nodup]
      refine List.Nodup.map_on ?_ (List.nodup_range _)
      intro x hx y hy hxy
      have hx' := List.mem_range.mp hx
      have hy' := List.mem_range.mp hy
      have hinj : reverse_bits (reverse_bits x stages) stages
          = reverse_bits (reverse_bits y stages) stages := by rw [hxy]
      rwa [reverse_bits_involution stages x hx',
        reverse_bits_involution stages y hy'] at hinj
    · rw [Multiset.coe_nodup]
      exact List.nodup_range _
    · intro a
      simp only [Multiset.mem_coe, List.mem_map, List.mem_range]
      constructor
      · rintro ⟨x, hx, rfl⟩
        exact reverse_bits_lt stages x
      · intro ha
        exact ⟨reverse_bits a stages, reverse_bits_lt stages a,
          reverse_bits_involution stages a ha⟩
  rw [h1, h2]
  exact congrArg (Multiset.map (lane b)) h3

/-- Witness for C3 at `stages = 3` on the concrete buffer. -/
theorem C3_multiset_unchanged_witness :
    testBuf.length = 2 * 2 ^ 3 ∧
      (((List.range (2 ^ 3)).map
          (lane (WebRtcSpl_ComplexBitReverse testBuf 3))) : Multiset (Int × Int))
        = (((List.range (2 ^ 3)).map (lane testBuf)) : Multiset (Int × Int)) :=
  ⟨by decide, C3_multiset_unchanged 3 testBuf (by decide)⟩

/-- C4: pair atomicity — viewing the buffer as 16-bit cells, the exact
(real, imaginary) pair originally at index `reverse_bits(i, stages)` appears
together at index `i`: the cell at offset `2*i` is the original cell at
`2*reverse_bits(i)`, and the cell at `2*i + 1` is the original cell at
`2*reverse_bits(i) + 1`. -/
theorem C4_pair_atomicity (stages : Nat) (b : List Int)
    (hlen : b.length = 2 * 2 ^ stages) (i : Nat) (hi : i < 2 ^ stages) :
    (WebRtcSpl_ComplexBitReverse b stages).getD (2 * i) 0
        = b.getD (2 * reverse_bits i stages) 0 ∧
    (WebRtcSpl_ComplexBitReverse b stages).getD (2 * i + 1) 0
        = b.getD (2 * reverse_bits i stages + 1) 0 := by
  have h := permute_lane b stages hlen i hi
  exact ⟨congrArg Prod.fst h, congrArg Prod.snd h⟩

/-- Witness for C4 at `stages = 3`, `i = 3`. -/
theorem C4_pair_atomicity_witness :
    testBuf.length = 2 * 2 ^ 3 ∧ 3 < 2 ^ 3 ∧
      ((WebRtcSpl_ComplexBitReverse testBuf 3).getD (2 * 3) 0
          = testBuf.getD (2 * reverse_bits 3 3) 0 ∧
        (WebRtcSpl_ComplexBitReverse testBuf 3).getD (2 * 3 + 1) 0
          = testBuf.getD (2 * reverse_bits 3 3 + 1) 0) :=
  ⟨by decide, by decide, C4_pair_atomicity 3 testBuf (by decide) 3 (by decide)⟩

/-- C5: incremental bit-reversed counter invariant — after the halving search
and the update in iteration `k`, the variable `index_reversed` equals
`reverse_bits(k, stages)`. -/
theorem C5_incremental_counter (b : List Int) (stages k : Nat)
    (_hstg : 1 ≤ stages) (_hk1 : 1 ≤ k) (hk2 : k ≤ 2 ^ stages - 1) :
    (permuteIter b stages k).index_reversed = reverse_bits k stages :=
  permuteIter_index_reversed b stages k hk2

/-- Witness for C5 at `stages = 3`, `k = 5`. -/
theorem C5_incremental_counter_witness :
    1 ≤ 3 ∧ 1 ≤ 5 ∧ 5 ≤ 2 ^ 3 - 1 ∧
      (permuteIter testBuf 3 5).index_reversed = reverse_bits 5 3 :=
  ⟨by decide, by decide, by decide,
    C5_incremental_counter testBuf 3 5 (by decide) (by decide) (by decide)⟩

/-- C6: fixed-point property — at every index that equals its own bit
reversal, the sample is unchanged by the call. -/
theorem C6_fixed_point (stages : Nat) (b : List Int)
    (hlen : b.length = 2 * 2 ^ stages) (i : Nat) (hi : i < 2 ^ stages)
    (hfix : reverse_bits i stages = i) :
    lane (WebRtcSpl_ComplexBitReverse b stages) i = lane b i := by
  have h := permute_lane b stages hlen i hi
  rwa [hfix] at h

/-- Witness for C6 at `stages = 3`, `i = 5` (binary `101`, a palindrome). -/
theorem C6_fixed_point_witness :
    testBuf.length = 2 * 2 ^ 3 ∧ 5 < 2 ^ 3 ∧ reverse_bits 5 3 = 5 ∧
      lane (WebRtcSpl_ComplexBitReverse testBuf 3) 5 = lane testBuf 5 :=
  ⟨by decide, by decide, by decide,
    C6_fixed_point 3 testBuf (by decide) 5 (by decide) (by decide)⟩

/-- C7: boundary `stages = 0` — with `N = 1` the loop range `1..0` is empty,
the loop body never executes, and any buffer is returned unchanged. -/
theorem C7_stages_zero (b : List Int) :
    WebRtcSpl_ComplexBitReverse b 0 = b := rfl

/-- C8: concrete scenario `stages = 3`, `N = 8` — eight samples with marker
values `v0..v7` (components `vK, wK`) come out in index order
`v0, v4, v2, v6, v1, v5, v3, v7`: pairs `1↔4` and `3↔6` swapped,
`0, 2, 5, 7` fixed. -/
theorem C8_concrete_stage3
    (v0 w0 v1 w1 v2 w2 v3 w3 v4 w4 v5 w5 v6 w6 v7 w7 : Int) :
    WebRtcSpl_ComplexBitReverse
        [v0, w0, v1, w1, v2, w2, v3, w3, v4, w4, v5, w5, v6, w6, v7, w7] 3
      = [v0, w0, v4, w4, v2, w2, v6, w6, v1, w1, v5, w5, v3, w3, v7, w7] := by
  have hlen : ([v0, w0, v1, w1, v2, w2, v3, w3, v4, w4, v5, w5, v6, w6, v7,
      w7] : List Int).length = 2 * 2 ^ 3 := rfl
  refine eq_of_lane_eq _ _ (2 ^ 3) ?_ rfl ?_
  · show (permuteIter _ 3 (2 ^ 3 - 1)).buf.length = 2 * 2 ^ 3
    rw [permuteIter_length]
    exact hlen
  · intro i hi
    rw [permute_lane _ 3 hlen i hi]
    interval_cases i <;> rfl

/-- C9: termination of the inner do-while — the halving search always exits:
after finitely many (`k ≥ 1`) halvings the loop condition fails, and the
result is `b >> k`.  (The whole routine is a total function by construction:
every other loop is a structurally terminating fold.) -/
theorem C9_search_terminates (b limit : Nat) :
    ∃ k, 1 ≤ k ∧ findBit b limit = b / 2 ^ k ∧ b / 2 ^ k ≤ limit := by
  induction b using Nat.strong_induction_on with
  | _ b ih =>
    rw [findBit_unfold]
    by_cases h : b / 2 > limit
    · rw [if_pos h]
      obtain ⟨k, hk1, hk2, hk3⟩ := ih (b / 2) (by omega)
      refine ⟨k + 1, by omega, ?_, ?_⟩
      · rw [hk2, Nat.div_div_eq_div_mul]
        congr 1
        rw [pow_succ]
        ring
      · rw [show (2 : Nat) ^ (k + 1) = 2 * 2 ^ k by ring,
          ← Nat.div_div_eq_div_mul]
        exact hk3
    · rw [if_neg h]
      exact ⟨1, le_refl 1, by rw [pow_one], by rw [pow_one]; omega⟩

/-- C10: in-bounds accesses — after every prefix of the loop, the running
`index_reversed` is at most `max = 2^stages - 1`, the cells it addresses lie
within the buffer, and the buffer length is preserved (all writes stay within
the `2^stages`-sample extent). -/
theorem C10_in_bounds (b : List Int) (stages k : Nat)
    (hlen : b.length = 2 * 2 ^ stages) (hk : k ≤ 2 ^ stages - 1) :
    (permuteIter b stages k).index_reversed ≤ 2 ^ stages - 1 ∧
    2 * (permuteIter b stages k).index_reversed + 1 < b.length ∧
    (permuteIter b stages k).buf.length = b.length := by
  have hrev : (permuteIter b stages k).index_reversed = reverse_bits k stages :=
    permuteIter_index_reversed b stages k hk
  have hlt : reverse_bits k stages < 2 ^ stages := reverse_bits_lt stages k
  refine ⟨by omega, by omega, permuteIter_length b stages k⟩

/-- Witness for C10 at `stages = 2`, `k = 3`. -/
theorem C10_in_bounds_witness :
    ([0, 10, 1, 11, 2, 12, 3, 13] : List Int).length = 2 * 2 ^ 2 ∧
    3 ≤ 2 ^ 2 - 1 ∧
      ((permuteIter [0, 10, 1, 11, 2, 12, 3, 13] 2 3).index_reversed
          ≤ 2 ^ 2 - 1 ∧
        2 * (permuteIter [0, 10, 1, 11, 2, 12, 3, 13] 2 3).index_reversed + 1
          < ([0, 10, 1, 11, 2, 12, 3, 13] : List Int).length ∧
        (permuteIter [0, 10, 1, 11, 2, 12, 3, 13] 2 3).buf.length
          = ([0, 10, 1, 11, 2, 12, 3, 13] : List Int).length) :=
  ⟨by decide, by decide,
    C10_in_bounds [0, 10, 1, 11, 2, 12, 3, 13] 2 3 (by decide) (by decide)⟩

end Audio
